import Mathlib

/-!
Verification of the `funcy` functional-programming combinator library.

The Rust source is shallowly embedded:
* iterators become `List`s; an operation that consumes elements from an
  iterator returns, next to its result, the list of elements not yet consumed;
* a pure callable (`Fn` / `FnOnce`) becomes a Lean function `α → Bool`;
* a stateful callable (`FnMut`, a closure with hidden mutable state) becomes a
  state-passing function `σ → α → σ × Bool` (or `σ × β` for mappers): each
  invocation consumes the current hidden state and returns the updated one;
* `Clone` (duplication of an element so the predicate can consume the copy
  while the original is still yielded) becomes an explicit function
  `dup : α → α`;
* references are values: an immutable borrow of `x` is modelled as `x` itself.
-/

namespace Funcy

variable {α β γ σ : Type}

/-- The predicate-inverting wrapper `Not<P>(pub P)` from `free.rs` /
`function.rs`: holds one inner callable. -/
structure Not (P : Type) where
  inner : P

/-- `impl FnOnce<(T,)> for Not<P> where P: FnOnce(T) -> bool`:
`call_once(self, (arg,)) = !(self.0)(arg)`.  A consuming callable carries no
reusable hidden state, so it is embedded as a plain function used once. -/
def Not.call_once (n : Not (α → Bool)) (arg : α) : Bool :=
  ! n.inner arg

/-- `impl FnMut<(T,)> for Not<P> where P: FnMut(T) -> bool`:
`call_mut(&mut self, (arg,)) = !(self.0)(arg)`.  The inner `FnMut` callable is
embedded with its hidden mutable state made explicit: it maps the state and
the argument to the updated state and the boolean result; `Not` forwards the
call and negates only the boolean. -/
def Not.call_mut (n : Not (σ → α → σ × Bool)) (s : σ) (arg : α) : σ × Bool :=
  let r := n.inner s arg
  (r.1, ! r.2)

/-- `impl Fn<(T,)> for Not<P> where P: Fn(T) -> bool`:
`call(&self, (arg,)) = !(self.0)(arg)`. -/
def Not.call (n : Not (α → Bool)) (arg : α) : Bool :=
  ! n.inner arg

/-- `Dot::dot` from `bound.rs`: `fn dot(self, func) { func(self) }` —
call `func` as a `self` method. -/
def dot (x : α) (func : α → β) : β :=
  func x

/-- `Dot::dot_ref` from `bound.rs`: `fn dot_ref(&self, func) { func(self) }` —
call `func` as a `&self` method.  A shared borrow is modelled as the value
itself; the receiver is untouched by construction. -/
def dot_ref (x : α) (func : α → β) : β :=
  func x

/-- Rust's `Iterator::enumerate` starting from index `n` (the index counter an
`Enumerate` adapter carries). -/
def enumFrom (n : Nat) : List α → List (Nat × α)
  | [] => []
  | x :: xs => (n, x) :: enumFrom (n + 1) xs

/-- Rust's `Iterator::enumerate`: pair each element with its 0-based index. -/
def enumerate (l : List α) : List (Nat × α) :=
  enumFrom 0 l

/-- `IterMove::find_m` from `iter_move.rs`:
`for item in self { if pred(item.clone()) { return Some(item); } } None`.
Returns the result together with the elements left unconsumed in the
iterator. -/
def find_m (dup : α → α) (pred : α → Bool) : List α → Option α × List α
  | [] => (none, [])
  | item :: rest =>
      if pred (dup item) then (some item, rest)
      else find_m dup pred rest

/-- `IterMove::any_m` from `iter_move.rs`:
`for item in self { if pred(item) { return true; } } false`.
Returns the result together with the elements left unconsumed. -/
def any_m (pred : α → Bool) : List α → Bool × List α
  | [] => (false, [])
  | item :: rest =>
      if pred item then (true, rest)
      else any_m pred rest

/-- `IterMove::all_m` from `iter_move.rs`:
`for item in self { if !pred(item) { return false; } } true`.
Returns the result together with the elements left unconsumed. -/
def all_m (pred : α → Bool) : List α → Bool × List α
  | [] => (true, [])
  | item :: rest =>
      if pred item then all_m pred rest
      else (false, rest)

/-- `IterMove::position_m` from `iter_move.rs`:
`self.enumerate().filter_map(|(i, item)| if pred(item) { Some(i) } else { None }).next()`. -/
def position_m (pred : α → Bool) (l : List α) : Option Nat :=
  ((enumerate l).filterMap fun ix =>
    if pred ix.2 then some ix.1 else none).head?

/-- `IterMove::rposition_m` from `iter_move.rs`:
`self.enumerate().rev().filter_map(|(i, item)| if pred(item) { Some(i) } else { None }).next()`.
Reversing the enumerated sequence embeds the backward traversal of the
`ExactSizeIterator + DoubleEndedIterator` source. -/
def rposition_m (pred : α → Bool) (l : List α) : Option Nat :=
  ((enumerate l).reverse.filterMap fun ix =>
    if pred ix.2 then some ix.1 else none).head?

/-- `<FilterMove as Iterator>::next` from `iter_move.rs`:
`while let Some(item) = self.iter.next() { if (self.pred)(item.clone()) { return Some(item); } } None`.
Returns the yielded element (if any) together with the rest of the source. -/
def filterMoveNext (dup : α → α) (pred : α → Bool) : List α → Option α × List α
  | [] => (none, [])
  | item :: rest =>
      if pred (dup item) then (some item, rest)
      else filterMoveNext dup pred rest

/-- Drain a `FilterMove` iterator: call `next` repeatedly (with fuel `n`,
which suffices once `n` is at least the source length) and collect the yielded
elements, as `Iterator::collect` does. -/
def filterMoveRun (dup : α → α) (pred : α → Bool) : Nat → List α → List α
  | 0, _ => []
  | n + 1, l =>
      match filterMoveNext dup pred l with
      | (none, _) => []
      | (some x, rest) => x :: filterMoveRun dup pred n rest

/-- `collect` on a `FilterMove` iterator over a finite source. -/
def filterMoveCollect (dup : α → α) (pred : α → Bool) (l : List α) : List α :=
  filterMoveRun dup pred l.length l

/-- `<MapRef as Iterator>::next` from `iter_ref.rs`:
`self.iter.next().as_ref().map(&mut self.func)`.
`func` is an `FnMut`, so its hidden state `σ` is threaded explicitly: one
source element is pulled, `func` is applied to it once, and the element is
then dropped. -/
def mapRefNext (func : σ → α → σ × β) (s : σ) :
    List α → Option β × σ × List α
  | [] => (none, s, [])
  | item :: rest =>
      let r := func s item
      (some r.2, r.1, rest)

/-- Pull `n` outputs from a `MapRef` iterator, collecting them and returning
the final hidden state of `func` and the unconsumed source suffix. -/
def mapRefRun (func : σ → α → σ × β) : Nat → σ → List α → List β × σ × List α
  | 0, s, l => ([], s, l)
  | n + 1, s, l =>
      match mapRefNext func s l with
      | (none, s1, l1) => ([], s1, l1)
      | (some b, s1, l1) =>
          let r := mapRefRun func n s1 l1
          (b :: r.1, r.2.1, r.2.2)

/-- `collect` on a `MapRef` iterator whose `func` is a pure closure `g`. -/
def mapRefCollect (g : α → β) (l : List α) : List β :=
  (mapRefRun (fun (s : Unit) x => (s, g x)) l.length () l).1

/-- The expression arm of the `bind!` macro from `lib.rs` / `binding.rs`:
`bind!({$receiver:expr}::$method)` expands to `|x| { $receiver }.$method(x)`.
The receiver expression sits inside the closure body, so each call of the
bound function evaluates it anew.  The expression may have effects, embedded
as a state transformer `recv : σ → σ × α`; `method` is the named unary
operation. -/
def bindExpr (recv : σ → σ × α) (method : α → β → γ) : σ → β → σ × γ :=
  fun s x =>
    let r := recv s
    (r.1, method r.2 x)

/-- Modelled from the spec: the **bind-expression** facility as §4.4 describes
it — "evaluate the expression exactly once at bind time, then produce a unary
function that invokes the named operation on the one resulting value for every
subsequent call".  Binding evaluates `recv` once, advancing the state, and the
returned unary function is pure. -/
def bindExprSpec (recv : σ → σ × α) (method : α → β → γ) (s : σ) :
    σ × (β → γ) :=
  let r := recv s
  (r.1, fun x => method r.2 x)

/-- Call a stateful unary function once per element of `xs`, in order,
threading its hidden state; collect the results. -/
def callAll (f : σ → β → σ × γ) : σ → List β → σ × List γ
  | s, [] => (s, [])
  | s, x :: xs =>
      let r := f s x
      let t := callAll f r.1 xs
      (t.1, r.2 :: t.2)

/-- Evaluate the effectful expression `recv` `n` times in sequence, collecting
the `n` produced values. -/
def evalN (recv : σ → σ × α) : σ → Nat → σ × List α
  | s, 0 => (s, [])
  | s, n + 1 =>
      let r := recv s
      let t := evalN recv r.1 n
      (t.1, r.2 :: t.2)

/-- Index of the first element satisfying `p` (reference recursion used to
state the `position_m` contract). -/
def firstIdx? (p : α → Bool) : List α → Option Nat
  | [] => none
  | x :: xs => if p x then some 0 else (firstIdx? p xs).map (· + 1)

/-- Index of the last element satisfying `p`, in forward order (reference
recursion used to state the `rposition_m` contract). -/
def lastIdx? (p : α → Bool) : List α → Option Nat
  | [] => none
  | x :: xs =>
      match lastIdx? p xs with
      | some i => some (i + 1)
      | none => if p x then some 0 else none

/-- Map `f` over a list while threading an accumulator state left-to-right:
the reference semantics of mapping a stateful closure once per element. -/
def mapAccum (f : σ → α → σ × β) : σ → List α → σ × List β
  | s, [] => (s, [])
  | s, x :: xs =>
      let r := f s x
      let t := mapAccum f r.1 xs
      (t.1, r.2 :: t.2)

theorem any_m_fst (pred : α → Bool) (l : List α) :
    (any_m pred l).1 = l.any pred := by
  induction l with
  | nil => rfl
  | cons x xs ih =>
      by_cases h : pred x = true <;> simp [any_m, h, ih]

theorem all_m_fst (pred : α → Bool) (l : List α) :
    (all_m pred l).1 = l.all pred := by
  induction l with
  | nil => rfl
  | cons x xs ih =>
      by_cases h : pred x = true <;> simp [all_m, h, ih]

theorem any_m_snd (pred : α → Bool) (l : List α) :
    (any_m pred l).2 = (l.dropWhile fun x => ! pred x).drop 1 := by
  induction l with
  | nil => rfl
  | cons x xs ih =>
      by_cases h : pred x = true <;> simp [any_m, List.dropWhile_cons, h, ih]

theorem all_m_snd (pred : α → Bool) (l : List α) :
    (all_m pred l).2 = (l.dropWhile pred).drop 1 := by
  induction l with
  | nil => rfl
  | cons x xs ih =>
      by_cases h : pred x = true <;> simp [all_m, List.dropWhile_cons, h, ih]

theorem find_m_fst (dup : α → α) (pred : α → Bool) :
    ∀ l : List α,
      (find_m dup pred l).1 = (l.filter fun e => pred (dup e)).head? := by
  intro l
  induction l with
  | nil => rfl
  | cons x xs ih =>
      by_cases hp : pred (dup x) = true <;>
        simp [find_m, List.filter_cons, hp, ih]

theorem find_m_at (dup : α → α) (pred : α → Bool) :
    ∀ (l : List α) (i : Nat) (h : i < l.length),
      (∀ j, ∀ hj : j < l.length, j < i → pred (dup (l.get ⟨j, hj⟩)) = false) →
      pred (dup (l.get ⟨i, h⟩)) = true →
      find_m dup pred l = (some (l.get ⟨i, h⟩), l.drop (i + 1)) := by
  intro l
  induction l with
  | nil => intro i h; simp at h
  | cons x xs ih =>
      intro i h hbefore hat
      cases i with
      | zero => simp [find_m, List.get] at hat ⊢; simp [hat]
      | succ i0 =>
          have hx : pred (dup x) = false := by
            simpa using hbefore 0 (by simp) (Nat.succ_pos i0)
          have := ih i0 (by simpa using Nat.lt_of_succ_lt_succ h)
            (fun j hj hji => by
              simpa using hbefore (j + 1) (by simpa using Nat.succ_lt_succ hj)
                (Nat.succ_lt_succ hji))
            (by simpa using hat)
          simp [find_m, hx, this, List.drop]

theorem filterMoveNext_eq (dup : α → α) (pred : α → Bool) :
    ∀ l : List α, filterMoveNext dup pred l = find_m dup pred l := by
  intro l
  induction l with
  | nil => rfl
  | cons x xs ih =>
      by_cases hp : pred (dup x) = true <;> simp [filterMoveNext, find_m, hp, ih]

theorem filterMoveRun_eq_filter (dup : α → α) (pred : α → Bool) :
    ∀ (l : List α) (n : Nat), l.length ≤ n →
      filterMoveRun dup pred n l = l.filter fun e => pred (dup e) := by
  intro l
  induction l with
  | nil => intro n _; cases n <;> simp [filterMoveRun, filterMoveNext]
  | cons x xs ih =>
      intro n hn
      cases n with
      | zero => simp at hn
      | succ m =>
          by_cases hp : pred (dup x) = true
          · simp [filterMoveRun, filterMoveNext, hp, List.filter_cons,
              ih m (by simpa using hn)]
          · have hstep : filterMoveRun dup pred (m + 1) (x :: xs)
                = filterMoveRun dup pred (m + 1) xs := by
              simp [filterMoveRun, filterMoveNext, hp]
            rw [hstep, ih (m + 1) (by simp at hn; omega), List.filter_cons]
            simp [hp]

theorem firstIdx?_none (p : α → Bool) :
    ∀ l : List α, firstIdx? p l = none ↔ ∀ x ∈ l, p x = false := by
  intro l
  induction l with
  | nil => simp [firstIdx?]
  | cons x xs ih =>
      by_cases hp : p x = true <;> simp [firstIdx?, hp, ih]

theorem firstIdx?_sound (p : α → Bool) :
    ∀ (l : List α) (i : Nat), firstIdx? p l = some i →
      ∃ h : i < l.length, p (l.get ⟨i, h⟩) = true ∧
        ∀ j, ∀ hj : j < l.length, j < i → p (l.get ⟨j, hj⟩) = false := by
  intro l
  induction l with
  | nil => intro i h; simp [firstIdx?] at h
  | cons x xs ih =>
      intro i h
      by_cases hp : p x = true
      · simp [firstIdx?, hp] at h
        subst h
        exact ⟨by simp, by simpa using hp, by omega⟩
      · simp [firstIdx?, hp] at h
        obtain ⟨i0, h0, rfl⟩ := h
        obtain ⟨hlt, hpi, hall⟩ := ih i0 h0
        refine ⟨by simpa using Nat.succ_lt_succ hlt, by simpa using hpi, ?_⟩
        intro j hj hji
        cases j with
        | zero => simpa using hp
        | succ j0 =>
            have := hall j0 (by simpa using Nat.lt_of_succ_lt_succ hj)
              (Nat.lt_of_succ_lt_succ hji)
            simpa using this

theorem firstIdx_spec_unique (p : α → Bool) (l : List α) (a b : Nat)
    (ha : ∃ h : a < l.length, p (l.get ⟨a, h⟩) = true ∧
      ∀ j, ∀ hj : j < l.length, j < a → p (l.get ⟨j, hj⟩) = false)
    (hb : ∃ h : b < l.length, p (l.get ⟨b, h⟩) = true ∧
      ∀ j, ∀ hj : j < l.length, j < b → p (l.get ⟨j, hj⟩) = false) :
    a = b := by
  obtain ⟨hal, hap, haf⟩ := ha
  obtain ⟨hbl, hbp, hbf⟩ := hb
  rcases Nat.lt_trichotomy a b with h | h | h
  · have hf := hbf a hal h
    rw [hap] at hf
    exact absurd hf (by decide)
  · exact h
  · have hf := haf b hbl h
    rw [hbp] at hf
    exact absurd hf (by decide)

theorem firstIdx?_some (p : α → Bool) (l : List α) (i : Nat) :
    firstIdx? p l = some i ↔
      ∃ h : i < l.length, p (l.get ⟨i, h⟩) = true ∧
        ∀ j, ∀ hj : j < l.length, j < i → p (l.get ⟨j, hj⟩) = false := by
  constructor
  · exact firstIdx?_sound p l i
  · intro hspec
    cases hl : firstIdx? p l with
    | none =>
        obtain ⟨hlt, hpi, _⟩ := hspec
        have hfalse := (firstIdx?_none p l).mp hl _ (List.get_mem l i hlt)
        rw [hpi] at hfalse
        exact absurd hfalse (by decide)
    | some i0 =>
        have := firstIdx_spec_unique p l i0 i (firstIdx?_sound p l i0 hl) hspec
        simp [this]

theorem lastIdx?_none (p : α → Bool) :
    ∀ l : List α, lastIdx? p l = none ↔ ∀ x ∈ l, p x = false := by
  intro l
  induction l with
  | nil => simp [lastIdx?]
  | cons x xs ih =>
      cases hx : lastIdx? p xs with
      | some i => simp [lastIdx?, hx, ← ih]
      | none =>
          by_cases hp : p x = true <;> simp [lastIdx?, hx, hp, ← ih]

theorem lastIdx?_sound (p : α → Bool) :
    ∀ (l : List α) (i : Nat), lastIdx? p l = some i →
      ∃ h : i < l.length, p (l.get ⟨i, h⟩) = true ∧
        ∀ j, ∀ hj : j < l.length, i < j → p (l.get ⟨j, hj⟩) = false := by
  intro l
  induction l with
  | nil => intro i h; simp [lastIdx?] at h
  | cons x xs ih =>
      intro i h
      cases hx : lastIdx? p xs with
      | some i0 =>
          simp [lastIdx?, hx] at h
          subst h
          obtain ⟨hlt, hpi, hall⟩ := ih i0 hx
          refine ⟨by simpa using Nat.succ_lt_succ hlt, by simpa using hpi, ?_⟩
          intro j hj hji
          cases j with
          | zero => omega
          | succ j0 =>
              have := hall j0 (by simpa using Nat.lt_of_succ_lt_succ hj)
                (Nat.lt_of_succ_lt_succ hji)
              simpa using this
      | none =>
          have hxs : ∀ y ∈ xs, p y = false := (lastIdx?_none p xs).mp hx
          by_cases hp : p x = true
          · simp [lastIdx?, hx, hp] at h
            subst h
            refine ⟨by simp, by simpa using hp, ?_⟩
            intro j hj hji
            cases j with
            | zero => omega
            | succ j0 =>
                have hmem : xs.get ⟨j0, by simpa using Nat.lt_of_succ_lt_succ hj⟩ ∈ xs :=
                  List.get_mem _ _ _
                simpa using hxs _ hmem
          · simp [lastIdx?, hx, hp] at h

theorem lastIdx_spec_unique (p : α → Bool) (l : List α) (a b : Nat)
    (ha : ∃ h : a < l.length, p (l.get ⟨a, h⟩) = true ∧
      ∀ j, ∀ hj : j < l.length, a < j → p (l.get ⟨j, hj⟩) = false)
    (hb : ∃ h : b < l.length, p (l.get ⟨b, h⟩) = true ∧
      ∀ j, ∀ hj : j < l.length, b < j → p (l.get ⟨j, hj⟩) = false) :
    a = b := by
  obtain ⟨hal, hap, haf⟩ := ha
  obtain ⟨hbl, hbp, hbf⟩ := hb
  rcases Nat.lt_trichotomy a b with h | h | h
  · have hf := haf b hbl h
    rw [hbp] at hf
    exact absurd hf (by decide)
  · exact h
  · have hf := hbf a hal h
    rw [hap] at hf
    exact absurd hf (by decide)

theorem lastIdx?_some (p : α → Bool) (l : List α) (i : Nat) :
    lastIdx? p l = some i ↔
      ∃ h : i < l.length, p (l.get ⟨i, h⟩) = true ∧
        ∀ j, ∀ hj : j < l.length, i < j → p (l.get ⟨j, hj⟩) = false := by
  constructor
  · exact lastIdx?_sound p l i
  · intro hspec
    cases hl : lastIdx? p l with
    | none =>
        obtain ⟨hlt, hpi, _⟩ := hspec
        have hfalse := (lastIdx?_none p l).mp hl _ (List.get_mem l i hlt)
        rw [hpi] at hfalse
        exact absurd hfalse (by decide)
    | some i0 =>
        have := lastIdx_spec_unique p l i0 i (lastIdx?_sound p l i0 hl) hspec
        simp [this]

theorem enumFrom_filterMap_head? (p : α → Bool) :
    ∀ (l : List α) (n : Nat),
      ((enumFrom n l).filterMap fun ix =>
        if p ix.2 then some ix.1 else none).head?
        = (firstIdx? p l).map (· + n) := by
  intro l
  induction l with
  | nil => intro n; rfl
  | cons x xs ih =>
      intro n
      by_cases hp : p x = true
      · simp [enumFrom, firstIdx?, hp]
      · cases hfi : firstIdx? p xs with
        | none => simp [enumFrom, firstIdx?, hp, ih (n + 1), hfi]
        | some i =>
            simp [enumFrom, firstIdx?, hp, ih (n + 1), hfi]
            omega

theorem enumFrom_rev_filterMap_head? (p : α → Bool) :
    ∀ (l : List α) (n : Nat),
      ((enumFrom n l).reverse.filterMap fun ix =>
        if p ix.2 then some ix.1 else none).head?
        = (lastIdx? p l).map (· + n) := by
  intro l
  induction l with
  | nil => intro n; rfl
  | cons x xs ih =>
      intro n
      rw [show enumFrom n (x :: xs) = (n, x) :: enumFrom (n + 1) xs from rfl,
        List.reverse_cons, List.filterMap_append, List.head?_append, ih (n + 1)]
      cases hfi : lastIdx? p xs with
      | none =>
          by_cases hp : p x = true <;>
            simp [lastIdx?, hfi, hp, List.filterMap]
      | some i =>
          simp [lastIdx?, hfi]
          omega

theorem mapRefRun_eq (func : σ → α → σ × β) :
    ∀ (n : Nat) (s : σ) (l : List α),
      mapRefRun func n s l
        = ((mapAccum func s (l.take n)).2, (mapAccum func s (l.take n)).1,
           l.drop n) := by
  intro n
  induction n with
  | zero => intro s l; simp [mapRefRun, mapAccum]
  | succ m ih =>
      intro s l
      cases l with
      | nil => simp [mapRefRun, mapRefNext, mapAccum]
      | cons x xs => simp [mapRefRun, mapRefNext, mapAccum, ih]

theorem mapAccum_pure (g : α → β) :
    ∀ (l : List α) (s : Unit), mapAccum (fun s x => (s, g x)) s l = (s, l.map g) := by
  intro l
  induction l with
  | nil => intro s; rfl
  | cons x xs ih => intro s; simp [mapAccum, ih]

theorem callAll_bindExpr (recv : σ → σ × α) (method : α → β → γ) :
    ∀ (xs : List β) (s : σ),
      callAll (bindExpr recv method) s xs
        = ((evalN recv s xs.length).1,
           List.zipWith method (evalN recv s xs.length).2 xs) := by
  intro xs
  induction xs with
  | nil => intro s; rfl
  | cons x xs ih => intro s; simp [callAll, bindExpr, evalN, ih]

theorem position_m_eq (pred : α → Bool) (l : List α) :
    position_m pred l = firstIdx? pred l := by
  rw [position_m, enumerate, enumFrom_filterMap_head?]
  cases firstIdx? pred l <;> simp

theorem rposition_m_eq (pred : α → Bool) (l : List α) :
    rposition_m pred l = lastIdx? pred l := by
  rw [rposition_m, enumerate, enumFrom_rev_filterMap_head?]
  cases lastIdx? pred l <;> simp

end Funcy

/-- Claim C2: under each of the three calling disciplines (consuming
`call_once`, reusable-with-mutation `call_mut`, pure reusable `call`),
evaluating `Not(p)` on an input returns the logical negation of `p`'s result,
and for a stateful inner predicate the state effect of one call of `p` happens
exactly once per call of `Not(p)`, unchanged. -/
theorem not_negates_and_preserves_effect :
    ∀ (α σ : Type) (p : α → Bool) (x : α)
      (q : σ → α → σ × Bool) (s : σ) (y : α),
      Funcy.Not.call_once (Funcy.Not.mk p) x = ! p x
      ∧ Funcy.Not.call (Funcy.Not.mk p) x = ! p x
      ∧ (Funcy.Not.call_mut (Funcy.Not.mk q) s y).2 = ! (q s y).2
      ∧ (Funcy.Not.call_mut (Funcy.Not.mk q) s y).1 = (q s y).1 := by
  intro α σ p x q s y
  refine ⟨rfl, rfl, rfl, rfl⟩

/-- Claim C10: `Not` is an involution: wrapping twice restores the original
behaviour (result and, for a stateful predicate, state effect) under each of
the three calling disciplines. -/
theorem not_involution :
    ∀ (α σ : Type) (p : α → Bool) (x : α)
      (q : σ → α → σ × Bool) (s : σ) (y : α),
      Funcy.Not.call_once
        (Funcy.Not.mk (Funcy.Not.call_once (Funcy.Not.mk p))) x = p x
      ∧ Funcy.Not.call (Funcy.Not.mk (Funcy.Not.call (Funcy.Not.mk p))) x = p x
      ∧ Funcy.Not.call_mut
          (Funcy.Not.mk (Funcy.Not.call_mut (Funcy.Not.mk q))) s y = q s y := by
  intro α σ p x q s y
  refine ⟨by simp [Funcy.Not.call_once], by simp [Funcy.Not.call], ?_⟩
  simp [Funcy.Not.call_mut]

/-- Claim C8: `dot x f` returns `f x`, and `dot_ref x f` returns `f` applied
to a shared borrow of `x` (a borrow is the value itself in this embedding, and
`x`, being passed by shared reference, is unchanged and still usable). -/
theorem dot_and_dot_ref_forward :
    ∀ (α β : Type) (x : α) (f : α → β),
      Funcy.dot x f = f x ∧ Funcy.dot_ref x f = f x := by
  intro α β x f
  exact ⟨rfl, rfl⟩

/-- Claim C4: `any_m` is existential quantification over the sequence and
`all_m` universal quantification; on the empty sequence they return `false`
and `true` respectively; and each stops consuming at the decisive element:
the unconsumed rest is the suffix just past the first match (for `any_m`)
or first non-match (for `all_m`). -/
theorem any_all_m_spec :
    ∀ (α : Type) (pred : α → Bool) (l : List α),
      (Funcy.any_m pred l).1 = l.any pred
      ∧ (Funcy.all_m pred l).1 = l.all pred
      ∧ Funcy.any_m pred ([] : List α) = (false, [])
      ∧ Funcy.all_m pred ([] : List α) = (true, [])
      ∧ (Funcy.any_m pred l).2 = (l.dropWhile fun x => ! pred x).drop 1
      ∧ (Funcy.all_m pred l).2 = (l.dropWhile pred).drop 1 := by
  intro α pred l
  exact ⟨Funcy.any_m_fst pred l, Funcy.all_m_fst pred l, rfl, rfl,
    Funcy.any_m_snd pred l, Funcy.all_m_snd pred l⟩


/-- Claim C3: `rposition_m` returns the zero-based forward-order index of the
last element satisfying the predicate, scanning from the end, and `none` when
no element satisfies it. -/
theorem rposition_m_spec :
    ∀ (α : Type) (pred : α → Bool) (l : List α),
      (Funcy.rposition_m pred l = none ↔ ∀ x ∈ l, pred x = false)
      ∧ ∀ i, Funcy.rposition_m pred l = some i ↔
          ∃ h : i < l.length, pred (l.get ⟨i, h⟩) = true ∧
            ∀ j, ∀ hj : j < l.length, i < j → pred (l.get ⟨j, hj⟩) = false := by
  intro α pred l
  refine ⟨?_, ?_⟩
  · rw [Funcy.rposition_m_eq]
    exact Funcy.lastIdx?_none pred l
  · intro i
    rw [Funcy.rposition_m_eq]
    exact Funcy.lastIdx?_some pred l i

/-- Claim C5: draining a `filter_m` adapter yields, in source order, exactly
the original elements whose duplicate satisfies the predicate (a standard
filter), and an always-true predicate makes it the identity transform. -/
theorem filter_m_spec :
    ∀ (α : Type) (dup : α → α) (pred : α → Bool) (l : List α),
      Funcy.filterMoveCollect dup pred l = l.filter (fun e => pred (dup e))
      ∧ Funcy.filterMoveCollect dup (fun _ => true) l = l := by
  intro α dup pred l
  constructor
  · rw [Funcy.filterMoveCollect]
    exact Funcy.filterMoveRun_eq_filter dup pred l l.length (le_refl _)
  · rw [Funcy.filterMoveCollect,
      Funcy.filterMoveRun_eq_filter dup (fun _ => true) l l.length (le_refl _)]
    simp

/-- Claim C6: `find_m` duplicates and tests each element in order and returns
the first original element whose duplicate satisfies the predicate (`none` if
the source is exhausted without a match); `position_m` returns the zero-based
index of the first match instead of the element. -/
theorem find_position_m_spec :
    ∀ (α : Type) (dup : α → α) (pred : α → Bool) (l : List α),
      (Funcy.find_m dup pred l).1 = (l.filter fun e => pred (dup e)).head?
      ∧ (Funcy.position_m pred l = none ↔ ∀ x ∈ l, pred x = false)
      ∧ ∀ i, Funcy.position_m pred l = some i ↔
          ∃ h : i < l.length, pred (l.get ⟨i, h⟩) = true ∧
            ∀ j, ∀ hj : j < l.length, j < i → pred (l.get ⟨j, hj⟩) = false := by
  intro α dup pred l
  refine ⟨Funcy.find_m_fst dup pred l, ?_, ?_⟩
  · rw [Funcy.position_m_eq]
    exact Funcy.firstIdx?_none pred l
  · intro i
    rw [Funcy.position_m_eq]
    exact Funcy.firstIdx?_some pred l i

/-- Claim C7: pulling `n` outputs from a `map_ref` adapter applies the mapping
function exactly once per produced output, in order (its hidden state is
threaded through exactly the consumed prefix `l.take n`), consumes exactly
that prefix of the source, and for a pure function draining the adapter gives
`l.map g`, a sequence of the same length whose `i`-th entry is `g` of the
`i`-th source element. -/
theorem map_ref_spec :
    ∀ (α β σ : Type) (f : σ → α → σ × β) (n : Nat) (s : σ) (l : List α)
      (g : α → β),
      Funcy.mapRefRun f n s l
        = ((Funcy.mapAccum f s (l.take n)).2, (Funcy.mapAccum f s (l.take n)).1,
           l.drop n)
      ∧ Funcy.mapRefCollect g l = l.map g
      ∧ (Funcy.mapRefCollect g l).length = l.length := by
  intro α β σ f n s l g
  have hcol : Funcy.mapRefCollect g l = l.map g := by
    rw [Funcy.mapRefCollect, Funcy.mapRefRun_eq, List.take_length,
      Funcy.mapAccum_pure]
  exact ⟨Funcy.mapRefRun_eq f n s l, hcol, by rw [hcol, List.length_map]⟩

/-- Claim C9: when `find_m` finds its match at position `i`, it has consumed
exactly the elements at positions `0` through `i`: the iterator state it
leaves behind is `l.drop (i + 1)`, so a subsequent `find_m` on the same
iterator scans only the elements from position `i + 1` onward and returns the
first match among them. -/
theorem find_m_consumes :
    ∀ (α : Type) (dup : α → α) (pred : α → Bool) (l : List α) (i : Nat)
      (h : i < l.length),
      (∀ j, ∀ hj : j < l.length, j < i → pred (dup (l.get ⟨j, hj⟩)) = false) →
      pred (dup (l.get ⟨i, h⟩)) = true →
      Funcy.find_m dup pred l = (some (l.get ⟨i, h⟩), l.drop (i + 1))
      ∧ (Funcy.find_m dup pred (Funcy.find_m dup pred l).2).1
          = ((l.drop (i + 1)).filter fun e => pred (dup e)).head? := by
  intro α dup pred l i h hbefore hat
  have hmain := Funcy.find_m_at dup pred l i h hbefore hat
  refine ⟨hmain, ?_⟩
  rw [hmain]
  exact Funcy.find_m_fst dup pred (l.drop (i + 1))

/-- Witness for claim C9 at a concrete input: in `[1, 2, 3, 4]` with an
is-even predicate, the match is at position 1; the elements `3, 4` are left
unconsumed and the follow-up search finds `4`. -/
theorem find_m_consumes_witness :
    Funcy.find_m (fun x => x) (fun x : Nat => x % 2 == 0) [1, 2, 3, 4]
      = (some 2, [3, 4])
    ∧ (Funcy.find_m (fun x => x) (fun x : Nat => x % 2 == 0) [3, 4]).1
      = some 4 := by
  have h := find_m_consumes Nat (fun x => x) (fun x => x % 2 == 0)
    [1, 2, 3, 4] 1 (by decide) (by decide) (by decide)
  have h2 := h.2
  rw [h.1] at h2
  exact ⟨by simpa using h.1, by simpa using h2⟩

/-- Claim C1 counterexample: with a counting receiver expression (state `s`,
value `s`, new state `s + 1`) bound to addition, the first call of the bound
function on `0` returns `0` but the second call returns `1`, and the
expression's effect has happened twice (final state `2`); under the
spec-modelled evaluate-once semantics every call returns `0` and the state
stays `1`.  So the receiver expression is not evaluated exactly once at bind
time, and the calls do not all use one single resulting value. -/
theorem bind_expr_once_counterexample :
    (Funcy.bindExpr (fun s : Nat => (s + 1, s))
      (fun (r : Nat) (x : Nat) => r + x) 0 0).2 = 0
    ∧ (Funcy.bindExpr (fun s : Nat => (s + 1, s))
        (fun (r : Nat) (x : Nat) => r + x)
        (Funcy.bindExpr (fun s : Nat => (s + 1, s))
          (fun (r : Nat) (x : Nat) => r + x) 0 0).1 0).2 = 1
    ∧ (Funcy.bindExpr (fun s : Nat => (s + 1, s))
        (fun (r : Nat) (x : Nat) => r + x)
        (Funcy.bindExpr (fun s : Nat => (s + 1, s))
          (fun (r : Nat) (x : Nat) => r + x) 0 0).1 0).1 = 2
    ∧ (Funcy.bindExprSpec (fun s : Nat => (s + 1, s))
        (fun (r : Nat) (x : Nat) => r + x) 0).2 0 = 0
    ∧ (Funcy.bindExprSpec (fun s : Nat => (s + 1, s))
        (fun (r : Nat) (x : Nat) => r + x) 0).1 = 1
    ∧ (1 : Nat) ≠ 0 := by
  exact ⟨rfl, rfl, rfl, rfl, rfl, by decide⟩

/-- Claim C1 (amended): the expression arm of `bind!` evaluates the receiver
expression once per call of the bound function, not once at bind time: over
any sequence of calls, the expression's effect is threaded once per call and
the `i`-th call invokes the named operation on the value produced by the
`i`-th evaluation. -/
theorem bind_expr_per_call :
    ∀ (α β γ σ : Type) (recv : σ → σ × α) (method : α → β → γ) (s : σ)
      (xs : List β),
      Funcy.callAll (Funcy.bindExpr recv method) s xs
        = ((Funcy.evalN recv s xs.length).1,
           List.zipWith method (Funcy.evalN recv s xs.length).2 xs) := by
  intro α β γ σ recv method s xs
  exact Funcy.callAll_bindExpr recv method xs s
